import Mathlib

set_option maxHeartbeats 1000000
set_option linter.unusedSectionVars false

/-
Verification development for the ArcChain Markov chain engine
(src/arc/mod.rs).  The Rust `HashMap`s are modelled as association
lists: `lookup` reads the first matching entry, `insertReplace` models
`HashMap::insert` (replacing the value of an existing key),
`insertIfAbsent` models `entry(..).or_insert_with(HashMap::new)`, and
`applyAt` models an in-place `get_mut` update.  The thread-local RNG of
`States::next` is replaced by an explicit draw value `cap` (the result
of `rng.gen_range(0, sum)`), and `generate`'s loop takes a finite list
of such draws as an oracle; a `GenResult` records whether the run
returned normally, panicked (missing key / empty range / the
`unreachable!` branch), was given an out-of-range draw, or did not
finish within the oracle.
-/

/-- Rust `type ArcToken<T> = Option<Arc<T>>`: `none` is the boundary sentinel. -/
abbrev ArcToken (T : Type) : Type := Option T

/-- A distribution `HashMap<ArcToken<T>, usize>` as an association list. -/
abbrev DistMap (T : Type) : Type := List (ArcToken T × Nat)

/-- The transition table `HashMap<Vec<ArcToken<T>>, ...>` as an association list. -/
abbrev Table (T : Type) : Type := List (List (ArcToken T) × DistMap T)

/-- The chain structure `ArcChain<T>` with its `map` and `order` fields. -/
structure ArcChain (T : Type) where
  map : Table T
  order : Nat
deriving DecidableEq

variable {T : Type} [DecidableEq T]

/-- Key lookup in an association-list table (models `HashMap` indexing / `get`). -/
def lookup : Table T → List (ArcToken T) → Option (DistMap T)
  | [], _ => none
  | (k, d) :: rest, key => if k = key then some d else lookup rest key

/-- `HashMap::insert`: replaces the value when the key is already present. -/
def insertReplace : Table T → List (ArcToken T) → DistMap T → Table T
  | [], key, d => [(key, d)]
  | (k, d0) :: rest, key, d =>
    if k = key then (k, d) :: rest else (k, d0) :: insertReplace rest key d

/-- `entry(key).or_insert_with(HashMap::new)`: inserts an empty distribution
only when the key is absent. -/
def insertIfAbsent : Table T → List (ArcToken T) → Table T
  | [], key => [(key, [])]
  | (k, d0) :: rest, key =>
    if k = key then (k, d0) :: rest else (k, d0) :: insertIfAbsent rest key

/-- In-place update of the distribution stored under a key (models
`get_mut(&key).unwrap()` followed by a mutation; the caller guarantees
the key is present). -/
def applyAt : Table T → List (ArcToken T) → (DistMap T → DistMap T) → Table T
  | [], _, _ => []
  | (k, d0) :: rest, key, f =>
    if k = key then (k, f d0) :: rest else (k, d0) :: applyAt rest key f

/-- `States::add` (src/arc/mod.rs lines 227-231): increment the weight of
`token` if present, otherwise insert it with weight 1. -/
def addTok : DistMap T → ArcToken T → DistMap T
  | [], t => [(t, 1)]
  | (k, v) :: rest, t =>
    if k = t then (k, v + 1) :: rest else (k, v) :: addTok rest t

/-- The per-window body of `feed`'s loop (src/arc/mod.rs lines 63-66):
insert the key if absent, then `add` the observed next token. -/
def addTransition (m : Table T) (key : List (ArcToken T)) (t : ArcToken T) : Table T :=
  applyAt (insertIfAbsent m key) key (fun d => addTok d t)

/-- The weight sum loop of `States::next` (src/arc/mod.rs lines 235-238). -/
def distTotal (d : DistMap T) : Nat :=
  d.foldl (fun s p => s + p.2) 0

/-- The scan loop of `States::next` (src/arc/mod.rs lines 241-247):
accumulate weights and return the first entry whose running total
exceeds the draw `cap`; `none` is the `unreachable!` branch. -/
def scanFrom (acc cap : Nat) : DistMap T → Option (ArcToken T)
  | [] => none
  | (k, v) :: rest => if acc + v > cap then some k else scanFrom (acc + v) cap rest

/-- Rust slice `windows n`: all contiguous subslices of length `n` (for `n ≥ 1`). -/
def windows (n : Nat) : List α → List (List α)
  | [] => []
  | x :: xs => if n ≤ xs.length + 1 then (x :: xs).take n :: windows n xs else []

/-- The extended sequence built by `feed` (src/arc/mod.rs lines 58-62):
`order` sentinels, the wrapped input tokens, one trailing sentinel. -/
def extSeq (order : Nat) (tokens : List T) : List (ArcToken T) :=
  List.replicate order none ++ tokens.map some ++ [none]

/-- `ArcChain::new` (src/arc/mod.rs lines 27-36). -/
def ArcChain.new : ArcChain T :=
  { map := insertReplace [] (List.replicate 1 none) [], order := 1 }

/-- `ArcChain::order` (src/arc/mod.rs lines 40-45); named `setOrder` because
`order` is the field name.  The `assert!(order > 0)` precondition is carried
as a hypothesis of the theorems about it.  Note `HashMap::insert` replaces. -/
def ArcChain.setOrder (c : ArcChain T) (n : Nat) : ArcChain T :=
  { map := insertReplace c.map (List.replicate n none) [], order := n }

/-- `ArcChain::feed` (src/arc/mod.rs lines 56-68): no-op on empty input,
otherwise fold the per-window update over all windows of length `order + 1`
of the extended sequence. -/
def ArcChain.feed (c : ArcChain T) (tokens : List T) : ArcChain T :=
  if tokens.isEmpty then c
  else
    { map :=
        (windows (c.order + 1) (extSeq c.order tokens)).foldl
          (fun m w => addTransition m (w.take c.order) (w.getD c.order none)) c.map,
      order := c.order }

/-- Outcome of a run of the `generate` loop under an explicit draw oracle. -/
inductive GenResult (T : Type) where
  /-- the loop broke normally and returned this accumulated output -/
  | ok : List (ArcToken T) → GenResult T
  /-- panic of the indexing `self.map[&curs]`: the window is not a key -/
  | missingKey : GenResult T
  /-- panic of `rng.gen_range(0, sum)` with `sum = 0`: empty distribution -/
  | emptyDraw : GenResult T
  /-- the `unreachable!` branch after the scan loop -/
  | scanFail : GenResult T
  /-- the oracle supplied a draw outside `[0, sum)` (not a real run) -/
  | badCap : GenResult T
  /-- the oracle was exhausted before the loop broke (run unfinished) -/
  | outOfFuel : GenResult T
deriving DecidableEq

/-- The loop of `ArcChain::generate` (src/arc/mod.rs lines 76-82), one
oracle draw per iteration: look up the current window, sample via the
`States::next` scan, slide the window, accumulate real tokens, and break
when the new last slot is the sentinel. -/
def genLoop (m : Table T) (order : Nat) :
    List Nat → List (ArcToken T) → List (ArcToken T) → GenResult T
  | [], curs, _ =>
    match lookup m curs with
    | none => GenResult.missingKey
    | some d => if distTotal d = 0 then GenResult.emptyDraw else GenResult.outOfFuel
  | cap :: caps, curs, ret =>
    match lookup m curs with
    | none => GenResult.missingKey
    | some d =>
      if distTotal d = 0 then GenResult.emptyDraw
      else if cap < distTotal d then
        match scanFrom 0 cap d with
        | none => GenResult.scanFail
        | some nxt =>
          let curs2 := curs.drop 1 ++ [nxt]
          let ret2 := match nxt with
            | some t => ret ++ [some t]
            | none => ret
          if curs2.getD (order - 1) none = none then GenResult.ok ret2
          else genLoop m order caps curs2 ret2
      else GenResult.badCap

/-- `ArcChain::generate` (src/arc/mod.rs lines 73-84) under a draw oracle. -/
def ArcChain.generate (c : ArcChain T) (caps : List Nat) : GenResult T :=
  genLoop c.map c.order caps (List.replicate c.order none) []

/-- `ArcChain::generate_from_token` (src/arc/mod.rs lines 90-103) under a
draw oracle: empty result when the all-`token` seed window is not a key,
otherwise the same loop seeded with that window and the token pre-pended. -/
def ArcChain.generate_from_token (c : ArcChain T) (token : T) (caps : List Nat) : GenResult T :=
  if (lookup c.map (List.replicate c.order (some token))).isSome then
    genLoop c.map c.order caps (List.replicate c.order (some token)) [some token]
  else GenResult.ok []

/-- Rust `str.split(' ')` on a list of characters: fragments between single
space characters, keeping empty fragments (so the result is never empty). -/
def splitSpace : List Char → List (List Char)
  | [] => [[]]
  | c :: rest =>
    if c = ' ' then [] :: splitSpace rest
    else
      match splitSpace rest with
      | [] => [[c]]
      | f :: fs => (c :: f) :: fs

/-- `ArcChain::feed_str` (src/arc/mod.rs lines 118-120): feed the fragments
produced by `split(' ')` (empty fragments included). -/
def ArcChain.feed_str (c : ArcChain (List Char)) (s : List Char) : ArcChain (List Char) :=
  c.feed (splitSpace s)

/- ### Basic lookup lemmas -/

theorem lookup_insertReplace_self (m : Table T) (k : List (ArcToken T)) (d : DistMap T) :
    lookup (insertReplace m k d) k = some d := by
  induction m with
  | nil => simp [insertReplace, lookup]
  | cons p rest ih =>
    obtain ⟨k0, d0⟩ := p
    by_cases h : k0 = k <;> simp [insertReplace, lookup, h, ih]

theorem lookup_insertReplace_ne (m : Table T) (k kk : List (ArcToken T)) (d : DistMap T)
    (h : kk ≠ k) : lookup (insertReplace m k d) kk = lookup m kk := by
  induction m with
  | nil => simp [insertReplace, lookup, Ne.symm h]
  | cons p rest ih =>
    obtain ⟨k0, d0⟩ := p
    by_cases h0 : k0 = k
    · subst h0
      simp [insertReplace, lookup, Ne.symm h]
    · simp [insertReplace, lookup, h0, ih]

theorem lookup_insertIfAbsent_self (m : Table T) (k : List (ArcToken T)) :
    lookup (insertIfAbsent m k) k = some ((lookup m k).getD []) := by
  induction m with
  | nil => simp [insertIfAbsent, lookup]
  | cons p rest ih =>
    obtain ⟨k0, d0⟩ := p
    by_cases h : k0 = k <;> simp [insertIfAbsent, lookup, h, ih]

theorem lookup_insertIfAbsent_ne (m : Table T) (k kk : List (ArcToken T))
    (h : kk ≠ k) : lookup (insertIfAbsent m k) kk = lookup m kk := by
  induction m with
  | nil => simp [insertIfAbsent, lookup, Ne.symm h]
  | cons p rest ih =>
    obtain ⟨k0, d0⟩ := p
    by_cases h0 : k0 = k
    · subst h0
      simp [insertIfAbsent, lookup, Ne.symm h]
    · simp [insertIfAbsent, lookup, h0, ih]

theorem lookup_applyAt_self (m : Table T) (k : List (ArcToken T)) (f : DistMap T → DistMap T) :
    lookup (applyAt m k f) k = (lookup m k).map f := by
  induction m with
  | nil => simp [applyAt, lookup]
  | cons p rest ih =>
    obtain ⟨k0, d0⟩ := p
    by_cases h : k0 = k <;> simp [applyAt, lookup, h, ih]

theorem lookup_applyAt_ne (m : Table T) (k kk : List (ArcToken T)) (f : DistMap T → DistMap T)
    (h : kk ≠ k) : lookup (applyAt m k f) kk = lookup m kk := by
  induction m with
  | nil => simp [applyAt, lookup]
  | cons p rest ih =>
    obtain ⟨k0, d0⟩ := p
    by_cases h0 : k0 = k
    · subst h0
      simp [applyAt, lookup, Ne.symm h]
    · simp [applyAt, lookup, h0, ih]

theorem addTransition_lookup_self (m : Table T) (k : List (ArcToken T)) (t : ArcToken T) :
    lookup (addTransition m k t) k = some (addTok ((lookup m k).getD []) t) := by
  unfold addTransition
  rw [lookup_applyAt_self, lookup_insertIfAbsent_self]
  rfl

theorem addTransition_lookup_ne (m : Table T) (k kk : List (ArcToken T)) (t : ArcToken T)
    (h : kk ≠ k) : lookup (addTransition m k t) kk = lookup m kk := by
  unfold addTransition
  rw [lookup_applyAt_ne _ _ _ _ h, lookup_insertIfAbsent_ne _ _ _ h]

/- ### Distribution weights -/

/-- The weight stored for a token in a distribution (0 when absent). -/
def distWeight : DistMap T → ArcToken T → Nat
  | [], _ => 0
  | (k, v) :: rest, t => if k = t then v else distWeight rest t

theorem distWeight_addTok_self (d : DistMap T) (t : ArcToken T) :
    distWeight (addTok d t) t = distWeight d t + 1 := by
  induction d with
  | nil => simp [addTok, distWeight]
  | cons p rest ih =>
    obtain ⟨k, v⟩ := p
    by_cases h : k = t <;> simp [addTok, distWeight, h, ih]

theorem distWeight_addTok_ne (d : DistMap T) (t tt : ArcToken T) (h : tt ≠ t) :
    distWeight (addTok d t) tt = distWeight d tt := by
  induction d with
  | nil => simp [addTok, distWeight, Ne.symm h]
  | cons p rest ih =>
    obtain ⟨k, v⟩ := p
    by_cases h0 : k = t
    · subst h0
      simp [addTok, distWeight, Ne.symm h]
    · simp [addTok, distWeight, h0, ih]

/-- Membership of a token among a distribution's keys. -/
def memDist (d : DistMap T) (t : ArcToken T) : Prop :=
  ∃ v, (t, v) ∈ d

theorem memDist_addTok (d : DistMap T) (t0 t : ArcToken T)
    (h : memDist (addTok d t0) t) : t = t0 ∨ memDist d t := by
  induction d with
  | nil =>
    obtain ⟨v, hv⟩ := h
    simp [addTok] at hv
    exact Or.inl hv.1
  | cons p rest ih =>
    obtain ⟨k, v0⟩ := p
    obtain ⟨v, hv⟩ := h
    by_cases h0 : k = t0
    · subst h0
      simp [addTok] at hv
      rcases hv with ⟨h1, _⟩ | h2
      · exact Or.inr ⟨v0, by simp [h1]⟩
      · exact Or.inr ⟨v, by simp [h2]⟩
    · simp [addTok, h0] at hv
      rcases hv with ⟨h1, h2⟩ | h2
      · exact Or.inr ⟨v, by simp [h1, h2]⟩
      · rcases ih ⟨v, h2⟩ with h3 | ⟨v2, h3⟩
        · exact Or.inl h3
        · exact Or.inr ⟨v2, by simp [h3]⟩

/-- Weight of a token under a key of a table (0 when the key is absent). -/
def mWeight (m : Table T) (k : List (ArcToken T)) (t : ArcToken T) : Nat :=
  distWeight ((lookup m k).getD []) t

theorem mWeight_addTransition (m : Table T) (key k : List (ArcToken T))
    (t0 t : ArcToken T) :
    mWeight (addTransition m key t0) k t
      = mWeight m k t + (if k = key ∧ t = t0 then 1 else 0) := by
  by_cases hk : k = key
  · subst hk
    unfold mWeight
    rw [addTransition_lookup_self]
    by_cases ht : t = t0
    · subst ht
      simp [distWeight_addTok_self]
    · simp [distWeight_addTok_ne _ _ _ ht, ht]
  · unfold mWeight
    rw [addTransition_lookup_ne _ _ _ _ hk]
    simp [hk]

theorem isSome_addTransition (m : Table T) (key k : List (ArcToken T)) (t : ArcToken T)
    (h : (lookup m k).isSome) : (lookup (addTransition m key t) k).isSome := by
  by_cases hk : k = key
  · subst hk
    rw [addTransition_lookup_self]
    simp
  · rw [addTransition_lookup_ne _ _ _ _ hk]
    exact h

/- ### Totals and window counting -/

theorem distTotal_aux (d : DistMap T) (a : Nat) :
    d.foldl (fun s p => s + p.2) a = a + distTotal d := by
  induction d generalizing a with
  | nil => simp [distTotal]
  | cons p rest ih =>
    simp only [distTotal, List.foldl_cons] at *
    rw [ih, ih (0 + p.2)]
    omega

theorem distTotal_cons (p : ArcToken T × Nat) (d : DistMap T) :
    distTotal (p :: d) = p.2 + distTotal d := by
  show List.foldl (fun s p => s + p.2) 0 (p :: d) = p.2 + distTotal d
  rw [List.foldl_cons, distTotal_aux]
  omega

theorem distTotal_append (d1 d2 : DistMap T) :
    distTotal (d1 ++ d2) = distTotal d1 + distTotal d2 := by
  induction d1 with
  | nil => simp [distTotal]
  | cons p rest ih =>
    simp only [List.cons_append, distTotal_cons, ih]
    omega

theorem windows_length {α : Type} (n : Nat) (hn : 1 ≤ n) (l : List α) :
    (windows n l).length = l.length + 1 - n := by
  induction l with
  | nil => simp [windows]; omega
  | cons x xs ih =>
    by_cases h : n ≤ xs.length + 1
    · simp [windows, h, ih]; omega
    · simp [windows, h]; omega

/-- The window at the front of a nonempty windows list, for later members use the tail. -/
theorem windows_mem {α : Type} (n : Nat) (hn : 1 ≤ n) (l : List α) (w : List α) :
    w ∈ windows n l ↔ ∃ i, i + n ≤ l.length ∧ w = (l.drop i).take n := by
  induction l with
  | nil =>
    simp [windows]
    omega
  | cons x xs ih =>
    constructor
    · intro hw
      by_cases h : n ≤ xs.length + 1
      · simp only [windows, if_pos h, List.mem_cons] at hw
        rcases hw with hw | hw
        · exact ⟨0, by simpa using h, by simpa using hw⟩
        · obtain ⟨i, hi, hwi⟩ := ih.mp hw
          exact ⟨i + 1, by simp only [List.length_cons]; omega, by simpa using hwi⟩
      · simp [windows, if_neg h] at hw
    · rintro ⟨i, hi, hw⟩
      have hguard : n ≤ xs.length + 1 := by
        simp at hi; omega
      simp only [windows, if_pos hguard, List.mem_cons]
      match i with
      | 0 => exact Or.inl (by simpa using hw)
      | i + 1 =>
        refine Or.inr (ih.mpr ⟨i, ?_, by simpa using hw⟩)
        simp at hi; omega

theorem windows_mem_length {α : Type} (n : Nat) (hn : 1 ≤ n) (l : List α) (w : List α)
    (hw : w ∈ windows n l) : w.length = n := by
  obtain ⟨i, hi, hweq⟩ := (windows_mem n hn l w).mp hw
  subst hweq
  simp [List.length_take, List.length_drop]
  omega

/- ### Folding the per-window update -/

/-- Count of the windows in a list whose key part is `k` and whose
observed-next slot is `t`. -/
def countKT (order : Nat) (k : List (ArcToken T)) (t : ArcToken T) :
    List (List (ArcToken T)) → Nat
  | [] => 0
  | w :: ws =>
    (if w.take order = k ∧ w.getD order none = t then 1 else 0) + countKT order k t ws

theorem mWeight_foldl (order : Nat) (ws : List (List (ArcToken T))) (m : Table T)
    (k : List (ArcToken T)) (t : ArcToken T) :
    mWeight (ws.foldl (fun m w => addTransition m (w.take order) (w.getD order none)) m) k t
      = mWeight m k t + countKT order k t ws := by
  induction ws generalizing m with
  | nil => simp [countKT]
  | cons w ws ih =>
    rw [List.foldl_cons, ih, mWeight_addTransition]
    simp only [countKT]
    by_cases h1 : w.take order = k
    · by_cases h2 : w.getD order none = t
      · rw [if_pos ⟨h1.symm, h2.symm⟩, if_pos ⟨h1, h2⟩]
        omega
      · rw [if_neg (fun hc => h2 hc.2.symm), if_neg (fun hc => h2 hc.2)]
        omega
    · rw [if_neg (fun hc => h1 hc.1.symm), if_neg (fun hc => h1 hc.1)]
      omega

theorem isSome_foldl (order : Nat) (ws : List (List (ArcToken T))) (m : Table T)
    (k : List (ArcToken T)) (h : (lookup m k).isSome) :
    (lookup (ws.foldl (fun m w => addTransition m (w.take order) (w.getD order none)) m)
      k).isSome := by
  induction ws generalizing m with
  | nil => exact h
  | cons w ws ih =>
    exact ih _ (isSome_addTransition _ _ _ _ h)

theorem memDist_addTransition (m : Table T) (key k : List (ArcToken T)) (t0 x : ArcToken T)
    (h : memDist ((lookup (addTransition m key t0) k).getD []) x) :
    (k = key ∧ x = t0) ∨ memDist ((lookup m k).getD []) x := by
  by_cases hk : k = key
  · subst hk
    rw [addTransition_lookup_self] at h
    simp only [Option.getD_some] at h
    rcases memDist_addTok _ _ _ h with h1 | h1
    · exact Or.inl ⟨rfl, h1⟩
    · exact Or.inr h1
  · rw [addTransition_lookup_ne _ _ _ _ hk] at h
    exact Or.inr h

theorem memDist_foldl (order : Nat) (ws : List (List (ArcToken T))) (m : Table T)
    (k : List (ArcToken T)) (x : ArcToken T)
    (h : memDist ((lookup
        (ws.foldl (fun m w => addTransition m (w.take order) (w.getD order none)) m)
        k).getD []) x) :
    memDist ((lookup m k).getD []) x
      ∨ ∃ w ∈ ws, w.take order = k ∧ w.getD order none = x := by
  induction ws generalizing m with
  | nil => exact Or.inl h
  | cons w ws ih =>
    simp only [List.foldl_cons] at h
    rcases ih _ h with h1 | ⟨w1, hw1, hw2⟩
    · rcases memDist_addTransition _ _ _ _ _ h1 with ⟨hk, hx⟩ | h2
      · exact Or.inr ⟨w, List.mem_cons_self _ _, hk.symm, hx.symm⟩
      · exact Or.inl h2
    · exact Or.inr ⟨w1, List.mem_cons_of_mem _ hw1, hw2⟩

theorem keyPresent_foldl (order : Nat) (ws : List (List (ArcToken T))) (m : Table T)
    (w : List (ArcToken T)) (hw : w ∈ ws) :
    (lookup (ws.foldl (fun m w => addTransition m (w.take order) (w.getD order none)) m)
      (w.take order)).isSome := by
  induction ws generalizing m with
  | nil => cases hw
  | cons w0 ws ih =>
    rcases List.mem_cons.mp hw with h | h
    · subst h
      simp only [List.foldl_cons]
      apply isSome_foldl
      rw [addTransition_lookup_self]
      simp
    · exact ih _ h

/- ### `feed` characterization -/

theorem feed_nil (c : ArcChain T) : ArcChain.feed c [] = c := by
  simp [ArcChain.feed]

theorem feed_order (c : ArcChain T) (S : List T) :
    (ArcChain.feed c S).order = c.order := by
  by_cases h : S.isEmpty <;> simp [ArcChain.feed, h]

theorem feed_map_eq (c : ArcChain T) (S : List T) (h : S ≠ []) :
    (ArcChain.feed c S).map
      = (windows (c.order + 1) (extSeq c.order S)).foldl
          (fun m w => addTransition m (w.take c.order) (w.getD c.order none)) c.map := by
  simp [ArcChain.feed, h]

/-- The number of sliding windows of one `feed` of `S` whose key is `k` and
whose observed-next slot is `t` (0 for the empty no-op feed). -/
def feedCount (order : Nat) (S : List T) (k : List (ArcToken T)) (t : ArcToken T) : Nat :=
  if S = [] then 0
  else countKT order k t (windows (order + 1) (extSeq order S))

theorem feed_weight (c : ArcChain T) (S : List T) (k : List (ArcToken T)) (t : ArcToken T) :
    mWeight (ArcChain.feed c S).map k t = mWeight c.map k t + feedCount c.order S k t := by
  by_cases h : S = []
  · subst h
    simp [feed_nil, feedCount]
  · rw [feed_map_eq c S h, mWeight_foldl, feedCount, if_neg h]

theorem extSeq_length (order : Nat) (S : List T) :
    (extSeq order S).length = order + S.length + 1 := by
  simp [extSeq]
  omega

/- ### Claim C1: the feed contract -/

/-- The full functional contract of `feed`: empty input is a no-op; on a
nonempty input of `n` tokens the extended sequence yields exactly `n + 1`
sliding windows whose per-window updates are folded over the table; each
per-window update inserts the key if absent and increments the last slot's
token weight by exactly 1; no entry is removed and no weight decreases. -/
def FeedSpec (c : ArcChain T) (S : List T) : Prop :=
  (ArcChain.feed c [] = c) ∧
  (S ≠ [] → (windows (c.order + 1) (extSeq c.order S)).length = S.length + 1) ∧
  (S ≠ [] →
    (ArcChain.feed c S).map
      = (windows (c.order + 1) (extSeq c.order S)).foldl
          (fun m w => addTransition m (w.take c.order) (w.getD c.order none)) c.map
    ∧ (ArcChain.feed c S).order = c.order) ∧
  (∀ (m : Table T) (k : List (ArcToken T)) (t : ArcToken T),
      lookup (addTransition m k t) k = some (addTok ((lookup m k).getD []) t)
    ∧ ∀ kk, kk ≠ k → lookup (addTransition m k t) kk = lookup m kk) ∧
  (∀ (d : DistMap T) (t : ArcToken T),
      distWeight (addTok d t) t = distWeight d t + 1
    ∧ ∀ tt, tt ≠ t → distWeight (addTok d t) tt = distWeight d tt) ∧
  (∀ k, (lookup c.map k).isSome → (lookup (ArcChain.feed c S).map k).isSome) ∧
  (∀ k t, mWeight c.map k t ≤ mWeight (ArcChain.feed c S).map k t)

/-- C1: for every chain of order `k ≥ 1` and every input sequence, `feed`
satisfies `FeedSpec`: no-op on empty input; otherwise exactly `n + 1` windows
of the sentinel-extended sequence are processed, each inserting its key if
absent and adding exactly 1 to the weight of its last slot's token; entries
are never removed and weights never decrease. -/
theorem feed_contract (c : ArcChain T) (S : List T) (h : 1 ≤ c.order) : FeedSpec c S := by
  refine ⟨feed_nil c, ?_, ?_, ?_, ?_, ?_, ?_⟩
  · intro hS
    rw [windows_length _ (by omega), extSeq_length]
    cases S with
    | nil => exact absurd rfl hS
    | cons a S => simp; omega
  · intro hS
    exact ⟨feed_map_eq c S hS, feed_order c S⟩
  · intro m k t
    exact ⟨addTransition_lookup_self m k t, fun kk hkk => addTransition_lookup_ne m k kk t hkk⟩
  · intro d t
    exact ⟨distWeight_addTok_self d t, fun tt htt => distWeight_addTok_ne d t tt htt⟩
  · intro k hk
    by_cases hS : S = []
    · subst hS
      rw [feed_nil]
      exact hk
    · rw [feed_map_eq c S hS]
      exact isSome_foldl _ _ _ _ hk
  · intro k t
    rw [feed_weight]
    omega

/-- Witness for C1 at a concrete chain and input. -/
theorem feed_contract_witness :
    1 ≤ (ArcChain.new (T := Nat)).order ∧ FeedSpec (ArcChain.new (T := Nat)) [0, 1] :=
  ⟨by decide, feed_contract (ArcChain.new (T := Nat)) [0, 1] (by decide)⟩

/- ### Claim C4: feeding is additive -/

/-- Additivity of `feed`: one feed of `S` adds exactly `feedCount` to every
transition weight, feeding `S` twice doubles that contribution, and weights
never decrease across any sequence of feed calls. -/
def FeedAdditiveSpec (c : ArcChain T) (S : List T) : Prop :=
  (∀ k t, mWeight (ArcChain.feed c S).map k t
      = mWeight c.map k t + feedCount c.order S k t) ∧
  (∀ k t, mWeight (ArcChain.feed (ArcChain.feed c S) S).map k t
      = mWeight c.map k t + 2 * feedCount c.order S k t) ∧
  (∀ (Ss : List (List T)) k t,
      mWeight c.map k t ≤ mWeight ((Ss.foldl ArcChain.feed c).map) k t)

/-- C4: feeding `S` and then feeding `S` again yields the table of a single
feed of `S` with every transition weight contributed by `S` doubled, and
weights are monotonically non-decreasing across any sequence of feed calls. -/
theorem feed_additive (c : ArcChain T) (S : List T) : FeedAdditiveSpec c S := by
  have mono : ∀ (Ss : List (List T)) (c : ArcChain T) k t,
      mWeight c.map k t ≤ mWeight ((Ss.foldl ArcChain.feed c).map) k t := by
    intro Ss
    induction Ss with
    | nil => intro c k t; simp
    | cons s Ss ih =>
      intro c k t
      rw [List.foldl_cons]
      calc mWeight c.map k t ≤ mWeight (ArcChain.feed c s).map k t := by
            rw [feed_weight]; omega
        _ ≤ _ := ih _ k t
  refine ⟨fun k t => feed_weight c S k t, fun k t => ?_, fun Ss k t => mono Ss c k t⟩
  rw [feed_weight, feed_weight, feed_order]
  omega

/- ### Claim C2: the weighted sampling scan -/

theorem scanFrom_isSome (d : DistMap T) (acc cap : Nat) (h1 : acc ≤ cap)
    (h2 : cap < acc + distTotal d) : (scanFrom acc cap d).isSome := by
  induction d generalizing acc with
  | nil =>
    simp [distTotal] at h2
    omega
  | cons p rest ih =>
    obtain ⟨k, v⟩ := p
    rw [distTotal_cons] at h2
    by_cases hv : acc + v > cap
    · simp [scanFrom, hv]
    · rw [scanFrom, if_neg hv]
      exact ih (acc + v) (by omega) (by omega)

theorem scanFrom_mem (d : DistMap T) (acc cap : Nat) (t : ArcToken T) (h1 : acc ≤ cap)
    (heq : scanFrom acc cap d = some t) : ∃ v, (t, v) ∈ d ∧ 0 < v := by
  induction d generalizing acc with
  | nil => simp [scanFrom] at heq
  | cons p rest ih =>
    obtain ⟨k, v⟩ := p
    by_cases hv : acc + v > cap
    · rw [scanFrom, if_pos hv] at heq
      cases heq
      exact ⟨v, List.mem_cons_self _ _, by omega⟩
    · rw [scanFrom, if_neg hv] at heq
      obtain ⟨v2, hmem, hpos⟩ := ih (acc + v) (by omega) heq
      exact ⟨v2, List.mem_cons_of_mem _ hmem, hpos⟩

theorem scanFrom_char (d : DistMap T) (hnd : (d.map Prod.fst).Nodup)
    (i : Nat) (h : i < d.length) (acc cap : Nat) (h1 : acc ≤ cap) :
    scanFrom acc cap d = some (d.get ⟨i, h⟩).1
      ↔ acc + distTotal (d.take i) ≤ cap
        ∧ cap < acc + distTotal (d.take i) + (d.get ⟨i, h⟩).2 := by
  induction d generalizing i acc with
  | nil => simp at h
  | cons p rest ih =>
    obtain ⟨k, v⟩ := p
    rw [List.map_cons, List.nodup_cons] at hnd
    match i with
    | 0 =>
      simp only [List.get, List.take_zero, distTotal]
      by_cases hv : acc + v > cap
      · rw [scanFrom, if_pos hv]
        simp
        omega
      · rw [scanFrom, if_neg hv]
        constructor
        · intro heq
          obtain ⟨v2, hmem, _⟩ := scanFrom_mem rest (acc + v) cap k (by omega) heq
          exact absurd (List.mem_map_of_mem Prod.fst hmem) hnd.1
        · intro hc
          simp only [List.foldl_nil] at hc
          omega
    | i + 1 =>
      have hi : i < rest.length := by simpa using h
      have hget : (((k, v) :: rest).get ⟨i + 1, h⟩) = rest.get ⟨i, hi⟩ := rfl
      rw [hget, List.take_succ_cons, distTotal_cons]
      by_cases hv : acc + v > cap
      · rw [scanFrom, if_pos hv]
        constructor
        · intro heq
          have hkeq : k = (rest.get ⟨i, hi⟩).1 := by
            injection heq
          have : (rest.get ⟨i, hi⟩).1 ∈ rest.map Prod.fst :=
            List.mem_map_of_mem Prod.fst (rest.get_mem i hi)
          rw [← hkeq] at this
          exact absurd this hnd.1
        · intro hc
          omega
      · rw [scanFrom, if_neg hv, ih hnd.2 i hi (acc + v) (by omega)]
        omega

theorem distTotal_take_succ (d : DistMap T) (i : Nat) (h : i < d.length) :
    distTotal (d.take (i + 1)) = distTotal (d.take i) + (d.get ⟨i, h⟩).2 := by
  rw [← List.take_concat_get d i h, List.concat_eq_append, distTotal_append]
  simp [distTotal_cons, distTotal]

theorem distTotal_take_le (d : DistMap T) (j : Nat) :
    distTotal (d.take j) ≤ distTotal d := by
  conv_rhs => rw [← List.take_append_drop j d]
  rw [distTotal_append]
  omega

/-- The sampling contract of `States::next`: for every draw `cap` in
`[0, sum)` the scan returns an entry (the `unreachable!` branch is dead),
and each entry is selected for exactly weight-many draw values. -/
def SampleSpec (d : DistMap T) : Prop :=
  (∀ cap, cap < distTotal d → (scanFrom 0 cap d).isSome) ∧
  (∀ i (h : i < d.length),
    ((Finset.range (distTotal d)).filter
      (fun cap => scanFrom 0 cap d = some (d.get ⟨i, h⟩).1)).card
      = (d.get ⟨i, h⟩).2)

/-- C2: for every non-empty distribution with positive weights and
pairwise-distinct keys, sampling with a uniform draw from `[0, sum)` hits
each entry for exactly weight-many of the `sum` draw values (probability
weight/sum for any fixed iteration order), and the failure branch after the
scan is unreachable. -/
theorem next_contract (d : DistMap T) (hne : d ≠ [])
    (hnd : (d.map Prod.fst).Nodup) (hpos : ∀ p ∈ d, 0 < p.2) : SampleSpec d := by
  constructor
  · intro cap hcap
    exact scanFrom_isSome d 0 cap (Nat.zero_le _) (by omega)
  · intro i h
    have hle : distTotal (d.take i) + (d.get ⟨i, h⟩).2 ≤ distTotal d := by
      rw [← distTotal_take_succ d i h]
      exact distTotal_take_le d (i + 1)
    have hset : (Finset.range (distTotal d)).filter
        (fun cap => scanFrom 0 cap d = some (d.get ⟨i, h⟩).1)
        = Finset.Ico (distTotal (d.take i))
            (distTotal (d.take i) + (d.get ⟨i, h⟩).2) := by
      ext c
      rw [Finset.mem_filter, Finset.mem_range, Finset.mem_Ico,
        scanFrom_char d hnd i h 0 c (Nat.zero_le _)]
      omega
    rw [hset, Nat.card_Ico]
    omega

/-- Witness for C2 at a concrete two-entry distribution. -/
theorem next_contract_witness :
    (([(some 0, 2), (none, 1)] : DistMap Nat) ≠ []
      ∧ (([(some 0, 2), (none, 1)] : DistMap Nat).map Prod.fst).Nodup
      ∧ ∀ p ∈ ([(some 0, 2), (none, 1)] : DistMap Nat), 0 < p.2)
    ∧ SampleSpec ([(some 0, 2), (none, 1)] : DistMap Nat) :=
  ⟨⟨by decide, by decide, by decide⟩,
    next_contract _ (by decide) (by decide) (by decide)⟩

/- ### Claims C3 and C5: the generation loop -/

theorem getD_snoc {α : Type} (l : List α) (x dflt : α) :
    (l ++ [x]).getD l.length dflt = x := by
  induction l with
  | nil => rfl
  | cons a l ih => simpa using ih

/-- A valid walk of the fed transitions: from window `curs`, each listed
token is drawable from the current window's distribution, the window slides
one slot per step, and the walk ends with a drawable sentinel. -/
inductive ValidWalk (m : Table T) : List (ArcToken T) → List (ArcToken T) → Prop where
  | stop : ∀ curs d cap, lookup m curs = some d → cap < distTotal d →
      scanFrom 0 cap d = some none → ValidWalk m curs []
  | step : ∀ curs d cap t rest, lookup m curs = some d → cap < distTotal d →
      scanFrom 0 cap d = some (some t) →
      ValidWalk m (curs.drop 1 ++ [some t]) rest →
      ValidWalk m curs (some t :: rest)

theorem genLoop_ok_ext (m : Table T) (order : Nat) (caps : List Nat) :
    ∀ curs ret out, genLoop m order caps curs ret = GenResult.ok out →
      ∃ s, out = ret ++ s := by
  induction caps with
  | nil =>
    intro curs ret out h
    simp only [genLoop] at h
    split at h
    · exact absurd h (by simp)
    · split at h <;> exact absurd h (by simp)
  | cons cap caps ih =>
    intro curs ret out h
    simp only [genLoop] at h
    split at h
    · exact absurd h (by simp)
    next d hl =>
      split at h
      · exact absurd h (by simp)
      next h0 =>
        split at h
        next hcap =>
          split at h
          · exact absurd h (by simp)
          next nxt hs =>
            cases nxt with
            | none =>
              split at h
              next hbr =>
                simp at h
                exact ⟨[], by simp [← h]⟩
              next hbr =>
                obtain ⟨s, hs2⟩ := ih _ _ _ h
                exact ⟨s, hs2⟩
            | some t =>
              split at h
              next hbr =>
                simp at h
                exact ⟨[some t], by simp [← h]⟩
              next hbr =>
                obtain ⟨s, hs2⟩ := ih _ _ _ h
                exact ⟨some t :: s, by simp [hs2]⟩
        next hcap => exact absurd h (by simp)

theorem genLoop_ok_walk (m : Table T) (order : Nat) (hord : 1 ≤ order) (caps : List Nat) :
    ∀ curs ret out, curs.length = order →
      genLoop m order caps curs ret = GenResult.ok out →
      ∃ s, out = ret ++ s ∧ (∀ x ∈ s, x ≠ none) ∧ ValidWalk m curs s := by
  induction caps with
  | nil =>
    intro curs ret out hlen h
    simp only [genLoop] at h
    split at h
    · exact absurd h (by simp)
    · split at h <;> exact absurd h (by simp)
  | cons cap caps ih =>
    intro curs ret out hlen h
    simp only [genLoop] at h
    split at h
    · exact absurd h (by simp)
    next d hl =>
      split at h
      · exact absurd h (by simp)
      next h0 =>
        split at h
        next hcap =>
          split at h
          · exact absurd h (by simp)
          next nxt hs =>
            have hlen2 : (curs.drop 1).length = order - 1 := by
              simp [hlen]
            cases nxt with
            | none =>
              split at h
              next hbr =>
                simp at h
                refine ⟨[], by simp [← h], by simp, ?_⟩
                exact ValidWalk.stop curs d cap hl hcap hs
              next hbr =>
                exact absurd (by rw [← hlen2]; exact getD_snoc _ _ _) hbr
            | some t =>
              split at h
              next hbr =>
                rw [← hlen2] at hbr
                rw [getD_snoc] at hbr
                exact absurd hbr (by simp)
              next hbr =>
                have hlen3 : (curs.drop 1 ++ [(some t : ArcToken T)]).length = order := by
                  simp [hlen2]
                  omega
                obtain ⟨s, hout, hmem, hwalk⟩ := ih _ _ _ hlen3 h
                refine ⟨some t :: s, by simp [hout], ?_, ?_⟩
                · intro x hx
                  rcases List.mem_cons.mp hx with hx | hx
                  · subst hx
                    simp
                  · exact hmem x hx
                · exact ValidWalk.step curs d cap t s hl hcap hs hwalk
        next hcap => exact absurd h (by simp)

/-- C3: every terminating run of `generate` outputs a sentinel-free sequence
that is a valid walk of the fed transitions starting from the all-sentinel
window, ending exactly when a sentinel is drawn (which is not appended). -/
theorem generate_contract (c : ArcChain T) (caps : List Nat) (out : List (ArcToken T))
    (hord : 1 ≤ c.order) (h : c.generate caps = GenResult.ok out) :
    (∀ x ∈ out, x ≠ none) ∧ ValidWalk c.map (List.replicate c.order none) out := by
  obtain ⟨s, hs, hmem, hwalk⟩ :=
    genLoop_ok_walk c.map c.order hord caps _ _ _ (by simp) h
  rw [List.nil_append] at hs
  subst hs
  exact ⟨hmem, hwalk⟩

/-- Witness for C3 at a concrete fed chain and terminating oracle. -/
theorem generate_contract_witness :
    1 ≤ (ArcChain.feed (ArcChain.new (T := Nat)) [0]).order
    ∧ (ArcChain.feed (ArcChain.new (T := Nat)) [0]).generate [0, 0]
        = GenResult.ok [some 0]
    ∧ ((∀ x ∈ [(some 0 : ArcToken Nat)], x ≠ none)
      ∧ ValidWalk (ArcChain.feed (ArcChain.new (T := Nat)) [0]).map
          (List.replicate (ArcChain.feed (ArcChain.new (T := Nat)) [0]).order none)
          [some 0]) :=
  ⟨by decide, by decide, generate_contract _ [0, 0] [some 0] (by decide) (by decide)⟩

/-- C5: `generate_from_token` returns the empty sequence as a normal result
when the all-`tok` seed window is absent; when the seed window is a key,
every terminating run returns a non-empty sequence starting with `tok`. -/
theorem generate_from_token_contract (c : ArcChain T) (tok : T) (caps : List Nat) :
    (lookup c.map (List.replicate c.order (some tok)) = none →
      c.generate_from_token tok caps = GenResult.ok []) ∧
    ((lookup c.map (List.replicate c.order (some tok))).isSome →
      ∀ out, c.generate_from_token tok caps = GenResult.ok out →
        out ≠ [] ∧ out.head? = some (some tok)) := by
  constructor
  · intro hnone
    simp [ArcChain.generate_from_token, hnone]
  · intro hsome out h
    unfold ArcChain.generate_from_token at h
    rw [if_pos hsome] at h
    obtain ⟨s, hs⟩ := genLoop_ok_ext c.map c.order caps _ _ _ h
    subst hs
    simp

/-- Witness for C5 at a concrete chain whose seed window is present. -/
theorem generate_from_token_contract_witness :
    (lookup (ArcChain.feed (ArcChain.new (T := Nat)) [5]).map
        (List.replicate (ArcChain.feed (ArcChain.new (T := Nat)) [5]).order (some 5))).isSome
    ∧ (([some 5] : List (ArcToken Nat)) ≠ []
      ∧ ([(some 5 : ArcToken Nat)]).head? = some (some 5)) :=
  ⟨by decide,
    (generate_from_token_contract (ArcChain.feed (ArcChain.new (T := Nat)) [5]) 5 [0]).2
      (by decide) [some 5] (by decide)⟩

/- ### Claim C6: generate on a never-fed model -/

/-- Chains that have never been fed: built by `new` and order changes only. -/
inductive NeverFed : ArcChain T → Prop where
  | base : NeverFed ArcChain.new
  | ord : ∀ c n, NeverFed c → 0 < n → NeverFed (ArcChain.setOrder c n)

theorem NeverFed_start (c : ArcChain T) (h : NeverFed c) :
    lookup c.map (List.replicate c.order none) = some [] := by
  induction h with
  | base => rfl
  | ord c n hc hn ih => exact lookup_insertReplace_self _ _ _

theorem NeverFed_empty_dists (c : ArcChain T) (h : NeverFed c)
    (k : List (ArcToken T)) : (lookup c.map k).getD [] = [] := by
  induction h with
  | base =>
    simp only [ArcChain.new, insertReplace, lookup]
    split <;> rfl
  | ord c n hc hn ih =>
    by_cases hk : k = List.replicate n none
    · subst hk
      rw [show (ArcChain.setOrder c n).map = insertReplace c.map (List.replicate n none) []
          from rfl]
      rw [lookup_insertReplace_self]
      rfl
    · rw [show (ArcChain.setOrder c n).map = insertReplace c.map (List.replicate n none) []
          from rfl]
      rw [lookup_insertReplace_ne _ _ _ _ hk]
      exact ih

/-- C6 (amended part): `generate` on a never-fed model fails fatally with the
empty-range draw on the start window's empty distribution, for every oracle. -/
theorem generate_neverFed (c : ArcChain T) (caps : List Nat) (h : NeverFed c) :
    c.generate caps = GenResult.emptyDraw := by
  have hs := NeverFed_start c h
  unfold ArcChain.generate
  cases caps <;> simp [genLoop, hs, distTotal]

/-- Witness for C6 on the freshly constructed chain. -/
theorem generate_neverFed_witness :
    NeverFed (ArcChain.new (T := Nat))
    ∧ (ArcChain.new (T := Nat)).generate [] = GenResult.emptyDraw :=
  ⟨NeverFed.base, generate_neverFed _ [] NeverFed.base⟩

/-- C6 counterexample: the empty-distribution sampling failure is reachable
on a model that HAS been fed: feeding `[0]` and then re-setting the order to
1 wipes the start window's distribution, and `generate` fails with the
empty-range draw although the model is not never-fed. -/
theorem generate_emptyDraw_fed_counterexample :
    (ArcChain.setOrder (ArcChain.feed (ArcChain.new (T := Nat)) [0]) 1).generate [0]
        = GenResult.emptyDraw
    ∧ ¬ NeverFed (ArcChain.setOrder (ArcChain.feed (ArcChain.new (T := Nat)) [0]) 1) := by
  refine ⟨by decide, fun h => ?_⟩
  exact absurd (NeverFed_empty_dists _ h [some 0]) (by decide)

/- ### Claim C7: changing the order -/

/-- The actual effect of `order(n)`: the order field is set, the all-sentinel
key of length `n` is bound to an empty distribution (REPLACING any previous
distribution under that key), and all other keys are untouched. -/
def OrderSpec (c : ArcChain T) (n : Nat) : Prop :=
  (c.setOrder n).order = n
  ∧ lookup (c.setOrder n).map (List.replicate n none) = some []
  ∧ ∀ k, k ≠ List.replicate n none → lookup (c.setOrder n).map k = lookup c.map k

/-- C7 (amended): for `n ≥ 1`, `order(n)` keeps every entry whose key differs
from the length-`n` all-sentinel window unchanged, but binds that all-sentinel
key to a fresh empty distribution even when it was already present. -/
theorem setOrder_contract (c : ArcChain T) (n : Nat) (h : 0 < n) : OrderSpec c n :=
  ⟨rfl, lookup_insertReplace_self _ _ _,
    fun k hk => lookup_insertReplace_ne _ _ _ _ hk⟩

/-- Witness for C7 on the fresh chain. -/
theorem setOrder_contract_witness :
    0 < 1 ∧ OrderSpec (ArcChain.new (T := Nat)) 1 :=
  ⟨by decide, setOrder_contract (ArcChain.new (T := Nat)) 1 (by decide)⟩

/-- C7 counterexample: after feeding `[0]` at order 1 the start key `[none]`
holds the distribution `[(some 0, 1)]`; calling `order(1)` replaces it with
the empty distribution, so the pre-existing entry is NOT unchanged. -/
theorem setOrder_discards_counterexample :
    lookup (ArcChain.feed (ArcChain.new (T := Nat)) [0]).map [none] = some [(some 0, 1)]
    ∧ lookup ((ArcChain.feed (ArcChain.new (T := Nat)) [0]).setOrder 1).map [none]
        = some [] :=
  ⟨by decide, by decide⟩

/- ### Claim C9: feed_str tokenization -/

theorem splitSpace_ne_nil (s : List Char) : splitSpace s ≠ [] := by
  cases s with
  | nil => simp [splitSpace]
  | cons c rest =>
    simp only [splitSpace]
    by_cases hc : c = ' '
    · simp [hc]
    · simp only [if_neg hc]
      cases splitSpace rest <;> simp

theorem splitSpace_eq_splitOn (s : List Char) : splitSpace s = s.splitOn ' ' := by
  induction s with
  | nil => rfl
  | cons c rest ih =>
    by_cases hc : c = ' '
    · subst hc
      simp only [splitSpace, if_pos rfl, ih]
      simp [List.splitOn, List.splitOnP_cons]
    · simp only [splitSpace, if_neg hc]
      cases h' : splitSpace rest with
      | nil => exact absurd h' (splitSpace_ne_nil rest)
      | cons f fs =>
        have h2 : rest.splitOn ' ' = f :: fs := by rw [← ih, h']
        simp only [List.splitOn, List.splitOnP_cons]
        rw [if_neg (by simpa using hc)]
        rw [show List.splitOnP (fun b => b == ' ') rest = rest.splitOn ' ' from rfl, h2]
        rfl

theorem intercalate_splitSpace (s : List Char) :
    List.intercalate [' '] (splitSpace s) = s := by
  rw [splitSpace_eq_splitOn]
  exact List.intercalate_splitOn s ' '

theorem splitSpace_no_space (s : List Char) : ∀ f ∈ splitSpace s, ' ' ∉ f := by
  induction s with
  | nil =>
    intro f hf
    simp [splitSpace] at hf
    simp [hf]
  | cons c rest ih =>
    intro f hf
    by_cases hc : c = ' '
    · subst hc
      simp only [splitSpace, if_true, List.mem_cons, reduceIte] at hf
      rcases hf with rfl | hf
      · simp
      · exact ih f hf
    · obtain ⟨f0, fs, h'⟩ : ∃ f0 fs, splitSpace rest = f0 :: fs := by
        cases hx : splitSpace rest with
        | nil => exact absurd hx (splitSpace_ne_nil rest)
        | cons a b => exact ⟨a, b, rfl⟩
      rw [show splitSpace (c :: rest) = (c :: f0) :: fs from by
        simp only [splitSpace, if_neg hc, h']] at hf
      rcases List.mem_cons.mp hf with rfl | hf2
      · intro hmem
        rcases List.mem_cons.mp hmem with h | h
        · exact hc h.symm
        · exact ih f0 (h' ▸ List.mem_cons_self f0 fs) h
      · exact ih f (h' ▸ List.mem_cons_of_mem f0 hf2)

/-- What `feed_str` actually does: it feeds the fragments of `split(' ')`,
which splits on the single space character and KEEPS empty fragments; joining
the fragments with a space recovers the input and no fragment contains a
space. -/
def FeedStrSpec (c : ArcChain (List Char)) (s : List Char) : Prop :=
  ArcChain.feed_str c s = ArcChain.feed c (splitSpace s)
  ∧ List.intercalate [' '] (splitSpace s) = s
  ∧ ∀ f ∈ splitSpace s, ' ' ∉ f

/-- C9 (amended): `feed_str` feeds the sequence obtained by splitting on the
single space character, keeping empty fragments (consecutive, leading or
trailing spaces contribute empty-string tokens). -/
theorem feed_str_contract (c : ArcChain (List Char)) (s : List Char) : FeedStrSpec c s :=
  ⟨rfl, intercalate_splitSpace s, splitSpace_no_space s⟩

/-- Witness for C9 on a concrete string. -/
theorem feed_str_contract_witness :
    ArcChain.feed_str ArcChain.new ['a', ' ', 'b']
        = ArcChain.feed ArcChain.new (splitSpace ['a', ' ', 'b'])
    ∧ List.intercalate [' '] (splitSpace ['a', ' ', 'b']) = ['a', ' ', 'b'] :=
  ⟨(feed_str_contract ArcChain.new ['a', ' ', 'b']).1,
    (feed_str_contract ArcChain.new ['a', ' ', 'b']).2.1⟩

/-- Modelled from the spec (the claimed tokenizer): "maps a line/string of
text to an ordered sequence of word tokens using whitespace as the delimiter,
discarding empty fragments". -/
def specWhitespaceTokens (s : List Char) : List (List Char) :=
  (List.splitOnP (fun ch => ch.isWhitespace) s).filter (fun f => !f.isEmpty)

/-- C9 counterexample: on `"a  b"` (two spaces) `feed_str` does NOT feed the
whitespace-split empty-discarding token sequence: `split(' ')` produces the
empty middle fragment as a real token, yielding a different table. -/
theorem feed_str_counterexample :
    ArcChain.feed_str ArcChain.new ['a', ' ', ' ', 'b']
      ≠ ArcChain.feed ArcChain.new (specWhitespaceTokens ['a', ' ', ' ', 'b']) := by
  decide

/- ### Claim C10: the loop lookup never fails on a fed chain -/

theorem getD_take {α : Type} (l : List α) (m n : Nat) (d : α) (h : n < m) :
    (l.take m).getD n d = l.getD n d := by
  rw [List.getD_eq_getD_get?, List.getD_eq_getD_get?, List.get?_take h]

theorem take_succ_of_getD {α : Type} (l : List (Option α)) (n : Nat) (a : α)
    (hl : l.getD n none = some a) : l.take (n + 1) = l.take n ++ [some a] := by
  have hn : n < l.length := by
    by_contra hc
    push_neg at hc
    rw [List.getD_eq_default _ _ hc] at hl
    simp at hl
  have hsome : l[n]? = some (some a) := by
    rw [List.getElem?_eq_getElem hn]
    rw [List.getD_eq_getElem _ _ hn] at hl
    rw [hl]
  rw [List.take_succ, hsome]
  rfl

theorem getD_cons_succ_tok {α : Type} (x : Option α) (l : List (Option α)) (p : Nat) :
    (x :: l).getD (p + 1) none = l.getD p none := by
  rw [List.getD_eq_getD_get?, List.getD_eq_getD_get?, List.get?_cons_succ]

/-- In a windows list over a sequence whose real-token positions are never
last, every window whose observed-next slot holds a real token has a
successor window whose key is the slid window. -/
theorem windows_succ_key (o : Nat) (l : List (ArcToken T))
    (hlast : ∀ p (t : T), l.getD p none = some t → p + 1 < l.length) :
    ∀ w (t : T), w ∈ windows (o + 2) l → w.getD (o + 1) none = some t →
      ∃ w2, w2 ∈ windows (o + 2) l
        ∧ w2.take (o + 1) = (w.take (o + 1)).drop 1 ++ [some t] := by
  induction l with
  | nil =>
    intro w t hw _
    simp [windows] at hw
  | cons x xs ih =>
    intro w t hw hwt
    by_cases hg : o + 2 ≤ xs.length + 1
    · simp only [windows, if_pos hg, List.mem_cons] at hw
      have hlast2 : ∀ p (t : T), xs.getD p none = some t → p + 1 < xs.length := by
        intro p t2 hp
        have := hlast (p + 1) t2 (by rw [getD_cons_succ_tok]; exact hp)
        simp at this
        omega
      rcases hw with rfl | hw
      · have hget : (x :: xs).getD (o + 1) none = some t := by
          rw [← getD_take (x :: xs) (o + 2) (o + 1) none (by omega)]
          exact hwt
        have hget2 : xs.getD o none = some t := by
          rw [← getD_cons_succ_tok x xs o]
          exact hget
        have hlt : o + 1 < xs.length := by
          have := hlast (o + 1) t hget
          simp at this
          omega
        have hw2mem : xs.take (o + 2) ∈ windows (o + 2) xs := by
          rw [windows_mem (o + 2) (by omega) xs]
          exact ⟨0, by omega, by simp⟩
        refine ⟨xs.take (o + 2), ?_, ?_⟩
        · simp only [windows, if_pos hg, List.mem_cons]
          exact Or.inr hw2mem
        · have e1 : ((x :: xs).take (o + 2)).take (o + 1) = (x :: xs).take (o + 1) := by
            rw [List.take_take]
            congr 1
            omega
          have e2 : (x :: xs).take (o + 1) = x :: xs.take o := by
            rw [List.take_succ_cons]
          have e3 : (xs.take (o + 2)).take (o + 1) = xs.take (o + 1) := by
            rw [List.take_take]
            congr 1
            omega
          rw [e1, e2, e3, take_succ_of_getD xs o t hget2]
          simp
      · obtain ⟨w2, hw2, heq⟩ := ih hlast2 w t hw hwt
        refine ⟨w2, ?_, heq⟩
        simp only [windows, if_pos hg, List.mem_cons]
        exact Or.inr hw2
    · simp [windows, if_neg hg] at hw
      exact absurd hw.1 (by omega)

/-- Version of the successor-window lemma stated for an arbitrary positive
order. -/
theorem windows_succ_key_ord (order : Nat) (hord : 1 ≤ order) (l : List (ArcToken T))
    (hlast : ∀ p (t : T), l.getD p none = some t → p + 1 < l.length) :
    ∀ w (t : T), w ∈ windows (order + 1) l → w.getD order none = some t →
      ∃ w2, w2 ∈ windows (order + 1) l
        ∧ w2.take order = (w.take order).drop 1 ++ [some t] := by
  obtain ⟨o, rfl⟩ : ∃ o, order = o + 1 := ⟨order - 1, by omega⟩
  exact windows_succ_key o l hlast

/-- In the extended sequence of `feed`, a real token never sits at the last
position (the sequence ends with the trailing sentinel). -/
theorem extSeq_last (order : Nat) (S : List T) :
    ∀ p (t : T), (extSeq order S).getD p none = some t →
      p + 1 < (extSeq order S).length := by
  intro p t hp
  have hlen : p < (extSeq order S).length := by
    by_contra hc
    push_neg at hc
    rw [List.getD_eq_default _ _ hc] at hp
    simp at hp
  have hlast_idx : (extSeq order S).getD (order + S.length) none = none := by
    have h1 : (List.replicate order (none : ArcToken T) ++ S.map some).length
        = order + S.length := by simp
    calc (extSeq order S).getD (order + S.length) none
        = ((List.replicate order (none : ArcToken T) ++ S.map some)
            ++ [none]).getD (order + S.length) none := rfl
      _ = none := by rw [← h1, getD_snoc]
  by_cases hpe : p = order + S.length
  · subst hpe
    rw [hlast_idx] at hp
    simp at hp
  · rw [extSeq_length] at hlen ⊢
    omega

/-- The key safety invariant of the table: whenever a real token appears in
the distribution of a key, the window obtained by sliding that key one slot
and appending the token is itself a key of the table. -/
def TableInv (m : Table T) : Prop :=
  ∀ k d (t : T), lookup m k = some d → memDist d (some t) →
    (lookup m (k.drop 1 ++ [some t])).isSome

theorem TableInv_new : TableInv (ArcChain.new : ArcChain T).map := by
  intro k d t hlk hmem
  simp only [ArcChain.new, insertReplace, lookup] at hlk
  split at hlk
  · obtain ⟨v, hv⟩ := hmem
    obtain rfl : ([] : DistMap T) = d := by injection hlk
    simp at hv
  · exact absurd hlk (by simp)

theorem TableInv_insertReplace (m : Table T) (k0 : List (ArcToken T))
    (h : TableInv m) : TableInv (insertReplace m k0 []) := by
  intro k d t hlk hmem
  by_cases hk : k = k0
  · subst hk
    rw [lookup_insertReplace_self] at hlk
    obtain rfl : ([] : DistMap T) = d := by injection hlk
    obtain ⟨v, hv⟩ := hmem
    simp at hv
  · rw [lookup_insertReplace_ne _ _ _ _ hk] at hlk
    have hsome := h k d t hlk hmem
    by_cases ht2 : k.drop 1 ++ [some t] = k0
    · rw [ht2, lookup_insertReplace_self]
      simp
    · rw [lookup_insertReplace_ne _ _ _ _ ht2]
      exact hsome

theorem TableInv_feed (c : ArcChain T) (S : List T) (hord : 1 ≤ c.order)
    (hInv : TableInv c.map) : TableInv (ArcChain.feed c S).map := by
  by_cases hS : S = []
  · subst hS
    rw [feed_nil]
    exact hInv
  · rw [feed_map_eq c S hS]
    intro k d t hlk hmem
    have hmem2 : memDist ((lookup
        ((windows (c.order + 1) (extSeq c.order S)).foldl
          (fun m w => addTransition m (w.take c.order) (w.getD c.order none)) c.map)
        k).getD []) (some t) := by
      rw [hlk]
      exact hmem
    rcases memDist_foldl c.order _ c.map k (some t) hmem2 with hold | ⟨w, hw, hkey, ht⟩
    · cases hl0 : lookup c.map k with
      | none =>
        rw [hl0] at hold
        obtain ⟨v, hv⟩ := hold
        simp at hv
      | some d0 =>
        rw [hl0] at hold
        exact isSome_foldl _ _ _ _ (hInv k d0 t hl0 hold)
    · obtain ⟨w2, hw2, heq⟩ :=
        windows_succ_key_ord c.order hord (extSeq c.order S)
          (extSeq_last c.order S) w t hw ht
      rw [← hkey, ← heq]
      exact keyPresent_foldl _ _ _ _ hw2

/-- Chains constructed as C10 describes: `new()`, optionally one `order(n)`
call (`n ≥ 1`) made before any feeding, then any sequence of `feed` calls of
which at least one input is non-empty. -/
def BuiltFed (c : ArcChain T) : Prop :=
  ∃ (c0 : ArcChain T) (fs : List (List T)),
    (c0 = ArcChain.new ∨ ∃ n, 0 < n ∧ c0 = ArcChain.setOrder ArcChain.new n)
    ∧ c = fs.foldl ArcChain.feed c0
    ∧ ∃ f ∈ fs, f ≠ []

theorem built_props (c : ArcChain T) (h : BuiltFed c) :
    TableInv c.map
      ∧ (lookup c.map (List.replicate c.order none)).isSome
      ∧ 1 ≤ c.order := by
  obtain ⟨c0, fs, hc0, hfold, -⟩ := h
  have base : TableInv c0.map
      ∧ (lookup c0.map (List.replicate c0.order none)).isSome
      ∧ 1 ≤ c0.order := by
    rcases hc0 with rfl | ⟨n, hn, rfl⟩
    · refine ⟨TableInv_new, ?_, le_refl 1⟩
      rw [show (ArcChain.new : ArcChain T).map
          = insertReplace [] (List.replicate 1 none) [] from rfl]
      rw [show (ArcChain.new : ArcChain T).order = 1 from rfl]
      rw [lookup_insertReplace_self]
      simp
    · refine ⟨TableInv_insertReplace _ _ TableInv_new, ?_, hn⟩
      rw [show (ArcChain.setOrder (ArcChain.new : ArcChain T) n).map
          = insertReplace (ArcChain.new : ArcChain T).map (List.replicate n none) []
          from rfl]
      rw [show (ArcChain.setOrder (ArcChain.new : ArcChain T) n).order = n from rfl]
      rw [lookup_insertReplace_self]
      simp
  have main : ∀ (gs : List (List T)) (c1 : ArcChain T),
      TableInv c1.map
        ∧ (lookup c1.map (List.replicate c1.order none)).isSome
        ∧ 1 ≤ c1.order →
      TableInv (gs.foldl ArcChain.feed c1).map
        ∧ (lookup (gs.foldl ArcChain.feed c1).map
            (List.replicate (gs.foldl ArcChain.feed c1).order none)).isSome
        ∧ 1 ≤ (gs.foldl ArcChain.feed c1).order := by
    intro gs
    induction gs with
    | nil => intro c1 hb; exact hb
    | cons s gs ih =>
      intro c1 hb
      rw [List.foldl_cons]
      apply ih
      refine ⟨TableInv_feed c1 s hb.2.2 hb.1, ?_, ?_⟩
      · rw [feed_order]
        by_cases hs : s = []
        · subst hs
          rw [feed_nil]
          exact hb.2.1
        · rw [feed_map_eq _ _ hs]
          exact isSome_foldl _ _ _ _ hb.2.1
      · rw [feed_order]
        exact hb.2.2
  rw [hfold]
  exact main fs c0 base

theorem genLoop_no_missing (m : Table T) (order : Nat) (hord : 1 ≤ order)
    (hInv : TableInv m) (caps : List Nat) :
    ∀ curs ret, curs.length = order → (lookup m curs).isSome →
      genLoop m order caps curs ret ≠ GenResult.missingKey := by
  induction caps with
  | nil =>
    intro curs ret hlen hsome h
    simp only [genLoop] at h
    split at h
    next hl =>
      rw [hl] at hsome
      simp at hsome
    next d hl => split at h <;> simp at h
  | cons cap caps ih =>
    intro curs ret hlen hsome h
    simp only [genLoop] at h
    split at h
    next hl =>
      rw [hl] at hsome
      simp at hsome
    next d hl =>
      split at h
      · simp at h
      next h0 =>
        split at h
        next hcap =>
          split at h
          · simp at h
          next nxt hs =>
            split at h
            next hbr => simp at h
            next hbr =>
              cases nxt with
              | none =>
                have hcon :
                    ((curs.drop 1 ++ [(none : ArcToken T)])).getD (order - 1) none
                      = none := by
                  have hlen2 : (curs.drop 1).length = order - 1 := by simp [hlen]
                  rw [← hlen2, getD_snoc]
                exact absurd hcon hbr
              | some t =>
                have hmem : memDist d (some t) := by
                  obtain ⟨v, hv, _⟩ := scanFrom_mem d 0 cap (some t) (Nat.zero_le _) hs
                  exact ⟨v, hv⟩
                have hsome2 := hInv curs d t hl hmem
                have hlen3 : (curs.drop 1 ++ [(some t : ArcToken T)]).length = order := by
                  simp [hlen]
                  omega
                exact ih _ _ hlen3 hsome2 h
        next hcap => simp at h

/-- C10: on every chain built by `new()`, optionally one `order(n)` call made
before any feeding, and then feed calls with at least one non-empty input,
every window reached by the `generate` loop is a key of the table, so the
unchecked lookup `self.map[&curs]` never fails, for every draw oracle. -/
theorem generate_no_missing_key (c : ArcChain T) (caps : List Nat) (h : BuiltFed c) :
    c.generate caps ≠ GenResult.missingKey := by
  obtain ⟨hInv, hstart, hord⟩ := built_props c h
  unfold ArcChain.generate
  exact genLoop_no_missing c.map c.order hord hInv caps _ _ (by simp) hstart

/-- Witness for C10 on a concrete fed chain. -/
theorem generate_no_missing_key_witness :
    BuiltFed (ArcChain.feed (ArcChain.new (T := Nat)) [0])
    ∧ (ArcChain.feed (ArcChain.new (T := Nat)) [0]).generate [0]
        ≠ GenResult.missingKey := by
  have hb : BuiltFed (ArcChain.feed (ArcChain.new (T := Nat)) [0]) :=
    ⟨ArcChain.new, [[0]], Or.inl rfl, rfl, [0], by simp, by simp⟩
  exact ⟨hb, generate_no_missing_key _ [0] hb⟩

/-- Witness for C4 at a concrete chain and input. -/
theorem feed_additive_witness :
    FeedAdditiveSpec (ArcChain.new (T := Nat)) [0] :=
  feed_additive (ArcChain.new (T := Nat)) [0]
